import Mathlib

/-!
Shallow embedding of the computational core of the notebook
`docs/source/application_notebooks/TZYX_fast_sequencing_z_indexing.ipynb`:
the triangle-waveform position-sequence generator (`upload_piezo_sequence`),
the notebook's z-stack parameters and derived quantities
(`num_z_positions`, `z_idx`), and the (time, z) acquisition-event loop.

Numeric values are embedded as exact rationals (ℚ).  All concrete
parameters used by the notebook (multiples of 0.25 with magnitude below 8)
are exactly representable in IEEE-754 double precision and the arithmetic
the notebook performs on them (sums and differences of such multiples) is
exact, so the rational model agrees with the numpy float64 computation at
every value the claims touch.
-/

/-- Embedding of `numpy.arange start stop step` (float semantics, over ℚ):
the list of `start + i * step` for `i = 0, 1, ...` of length
`max (⌈(stop - start) / step⌉) 0` (`Int.toNat` clamps a negative ceiling
to `0`).  numpy raises on `step = 0`; the notebook never passes a zero
step, and every use below has `step ≠ 0`. -/
def arange (start stop step : ℚ) : List ℚ :=
  (List.range ⌈(stop - start) / step⌉.toNat).map (fun i : ℕ => start + (i : ℚ) * step)

/-- The position sequence built inside `upload_piezo_sequence`:
`np.hstack((np.arange(start_end_pos, mid_pos + step_size, step_size),
            np.arange(mid_pos, start_end_pos - step_size, -step_size)))`. -/
def pos_sequence (start_end_pos mid_pos step_size : ℚ) : List ℚ :=
  arange start_end_pos (mid_pos + step_size) step_size ++
    arange mid_pos (start_end_pos - step_size) (-step_size)

/-- `upload_piezo_sequence(bridge, start_end_pos, mid_pos, step_size, relative)`.
The live hardware state read by `mmc.get_position(z_stage)` is passed in as
`stagePos`; the hardware-facing calls (`construct_java_object`,
`set_property`, `load_stage_sequence`) only forward the computed data, so the
function's observable result is the returned pair `(z_pos, pos_sequence)`:
`z_pos = 0`, and if `relative` then `z_pos = stagePos` and the sequence is
shifted elementwise by `z_pos` (`pos_sequence += z_pos`). -/
def upload_piezo_sequence (stagePos : ℚ) (start_end_pos mid_pos step_size : ℚ)
    (relative : Bool) : ℚ × List ℚ :=
  let ps := pos_sequence start_end_pos mid_pos step_size
  if relative then (stagePos, ps.map (fun p => p + stagePos))
  else (0, ps)

/-- Python `int(q)`: truncation toward zero. -/
def pyInt (q : ℚ) : ℤ :=
  if 0 ≤ q then ⌊q⌋ else ⌈q⌉

/-- Notebook z-stack parameter `start_end_pos = -2.5`. -/
def nbStartEndPos : ℚ := -5/2

/-- Notebook z-stack parameter `mid_pos = 2.5`. -/
def nbMidPos : ℚ := 5/2

/-- Notebook z-stack parameter `step_size = 0.25`. -/
def nbStepSize : ℚ := 1/4

/-- `num_z_positions = int(abs(mid_pos - start_end_pos) / step_size + 1)`,
as first computed in the parameter cell (before the later reassignment
`num_z_positions = len(pos_sequence)`). -/
def num_z_positions : ℤ :=
  pyInt (|nbMidPos - nbStartEndPos| / nbStepSize + 1)

/-- `z_idx = list(range(num_z_positions))`, built from the formula value of
`num_z_positions` (the reassignment to `len(pos_sequence)` happens after
this list is built). -/
def z_idx : List ℤ :=
  (List.range num_z_positions.toNat).map Int.ofNat

/-- One acquisition event `{'axes': {'time': i, 'z': j}}`. -/
structure Event where
  time : ℕ
  z : ℤ
deriving DecidableEq, Repr

/-- The state of the event-generation loop.  `z_idx` is the original list
object and `z_idx_` the working copy made by `z_idx_ = z_idx.copy()`; the
loop body appends to `events` and reverses `z_idx_` in place, never touching
`z_idx`. -/
structure AcqState where
  events : List Event
  z_idx : List ℤ
  z_idx_ : List ℤ
deriving DecidableEq, Repr

/-- One iteration of the outer loop at time point `i`:
`for j in z_idx_: events.append({'axes': {'time': i, 'z': j}})` followed by
`z_idx_.reverse()`. -/
def eventLoopStep (i : ℕ) (s : AcqState) : AcqState :=
  { events := s.events ++ s.z_idx_.map (fun j => ⟨i, j⟩),
    z_idx := s.z_idx,
    z_idx_ := s.z_idx_.reverse }

/-- The full event-generation loop: starting from `events = []` and
`z_idx_ = z_idx.copy()`, run `eventLoopStep` for `i in range(num_time_points)`. -/
def runEventLoop (num_time_points : ℕ) (zIdx : List ℤ) : AcqState :=
  (List.range num_time_points).foldl (fun s i => eventLoopStep i s)
    ⟨[], zIdx, zIdx⟩

/-- The generated event list. -/
def genEvents (num_time_points : ℕ) (zIdx : List ℤ) : List Event :=
  (runEventLoop num_time_points zIdx).events

/-- The argument the end-of-run reset cell passes to
`mmc.set_position(z_stage, z_pos)`: the `z_pos` returned by
`upload_piezo_sequence` for the notebook's z-stack parameters. -/
def resetPosition (stagePos : ℚ) (relative : Bool) : ℚ :=
  (upload_piezo_sequence stagePos nbStartEndPos nbMidPos nbStepSize relative).1

/-- Recursive form of the event loop over an explicit list of time indices:
for each index `i`, emit one event per entry of the current z-index order,
then recurse with the order reversed. -/
def genAux : List ℕ → List ℤ → List Event
  | [], _ => []
  | i :: rest, zs => zs.map (fun j => ⟨i, j⟩) ++ genAux rest zs.reverse

/-- Relation between two consecutive generated events: either they belong
to the same time point and their z indices differ by exactly one, or the
second starts the next time point at the same z index as the first. -/
def evStep (e1 e2 : Event) : Prop :=
  (e2.time = e1.time ∧ (e2.z - e1.z).natAbs = 1) ∨
    (e2.time = e1.time + 1 ∧ e2.z = e1.z)

instance : DecidableRel evStep := by
  unfold evStep
  infer_instance

/-! ### Helper lemmas (shared) -/

/-- An `arange` whose span is an exact multiple of the step is the
map of `i ↦ start + i * step` over `range n`. -/
theorem arange_exact (s δ : ℚ) (n : ℕ) (hδ : δ ≠ 0) :
    arange s (s + n * δ) δ = (List.range n).map (fun i : ℕ => s + (i : ℚ) * δ) := by
  unfold arange
  congr 2
  rw [add_sub_cancel_left, mul_div_cancel_right₀ _ hδ, Int.ceil_natCast, Int.toNat_natCast]

/-- An affine map of the naturals into ℚ with nonzero slope is injective. -/
theorem affine_nat_injective (a δ : ℚ) (hδ : δ ≠ 0) :
    Function.Injective (fun i : ℕ => a + (i : ℚ) * δ) := by
  intro i j hij
  simp only [add_right_inj] at hij
  exact_mod_cast mul_right_cancel₀ hδ hij

/-- When the half-span `mid_pos - start_end_pos` is the exact multiple
`k * step_size`, both `arange` runs of `pos_sequence` have `k + 1` entries:
the ascending run lists `s + i * δ` and the descending run lists
`m - i * δ`, both for `i < k + 1`. -/
theorem pos_sequence_exact (s m δ : ℚ) (k : ℕ) (hδ : δ ≠ 0)
    (hk : m - s = k * δ) :
    pos_sequence s m δ =
      (List.range (k + 1)).map (fun i : ℕ => s + (i : ℚ) * δ) ++
        (List.range (k + 1)).map (fun i : ℕ => m + (i : ℚ) * (-δ)) := by
  have hm : m = s + (k : ℚ) * δ := by linarith
  have h1 : m + δ = s + ((k + 1 : ℕ) : ℚ) * δ := by push_cast; linarith
  have h2 : s - δ = m + ((k + 1 : ℕ) : ℚ) * (-δ) := by push_cast; linarith
  unfold pos_sequence
  rw [h1, h2, arange_exact _ _ _ hδ, arange_exact _ _ _ (neg_ne_zero.mpr hδ)]

/-- The notebook's `num_z_positions`, as first computed from the formula,
is 21. -/
theorem num_z_positions_eq : num_z_positions = 21 := by
  have h : |nbMidPos - nbStartEndPos| / nbStepSize + 1 = ((21 : ℤ) : ℚ) := by
    unfold nbMidPos nbStartEndPos nbStepSize
    norm_num
  unfold num_z_positions pyInt
  rw [h]
  norm_num

/-- The notebook's `z_idx` is the list of the integers 0 through 20. -/
theorem z_idx_eq : z_idx = (List.range 21).map Int.ofNat := by
  unfold z_idx
  rw [num_z_positions_eq]
  rfl

/-- Unfolding one iteration of the event loop. -/
theorem runEventLoop_succ (n : ℕ) (zs : List ℤ) :
    runEventLoop (n + 1) zs = eventLoopStep n (runEventLoop n zs) := by
  unfold runEventLoop
  rw [List.range_succ, List.foldl_append]
  rfl

/-- The loop invariant: the original `z_idx` field is never written, the
working copy keeps its length, and the event count grows by the z-count
each iteration. -/
theorem runEventLoop_invariants (n : ℕ) (zs : List ℤ) :
    (runEventLoop n zs).z_idx = zs ∧
      (runEventLoop n zs).z_idx_.length = zs.length ∧
      (runEventLoop n zs).events.length = n * zs.length := by
  induction n with
  | zero => exact ⟨rfl, rfl, by simp [runEventLoop]⟩
  | succ n ih =>
    obtain ⟨h1, h2, h3⟩ := ih
    rw [runEventLoop_succ]
    unfold eventLoopStep
    refine ⟨h1, ?_, ?_⟩
    · simpa using h2
    · simp only [List.length_append, List.length_map, h2, h3]
      ring

/-- The working copy after `n` iterations is the input reversed `n` times. -/
theorem runEventLoop_z_idx_copy (n : ℕ) (zs : List ℤ) :
    (runEventLoop n zs).z_idx_ = List.reverse^[n] zs := by
  induction n with
  | zero => rfl
  | succ n ih =>
    rw [runEventLoop_succ, Function.iterate_succ_apply']
    unfold eventLoopStep
    simp [ih]

/-- Equation lemma: `genAux` on an empty index list. -/
theorem genAux_nil (zs : List ℤ) : genAux [] zs = [] := rfl

/-- Equation lemma: `genAux` on a cons of time indices. -/
theorem genAux_cons (i : ℕ) (rest : List ℕ) (zs : List ℤ) :
    genAux (i :: rest) zs =
      zs.map (fun j => ⟨i, j⟩) ++ genAux rest zs.reverse := rfl

/-- The folded event loop emits exactly the events of `genAux` over the
remaining time indices, appended to the events already accumulated. -/
theorem foldl_eventLoopStep_events (l : List ℕ) (s : AcqState) :
    (l.foldl (fun s i => eventLoopStep i s) s).events =
      s.events ++ genAux l s.z_idx_ := by
  induction l generalizing s with
  | nil => simp [genAux_nil]
  | cons i rest ih =>
    rw [List.foldl_cons, ih, genAux_cons]
    unfold eventLoopStep
    simp [List.append_assoc]

/-- The event list is `genAux` over the time indices `0, …, n-1`. -/
theorem genEvents_eq_genAux (n : ℕ) (zs : List ℤ) :
    genEvents n zs = genAux (List.range n) zs := by
  unfold genEvents runEventLoop
  rw [foldl_eventLoopStep_events]
  rfl

/-- Consecutive entries of `List.range n` are successors. -/
theorem chain'_range_id (n : ℕ) :
    List.Chain' (fun a b => b = a + 1) (List.range n) := by
  cases n with
  | zero => simp
  | succ n => exact (List.chain'_range_succ _ n).mpr (fun m _ => rfl)

/-- Main traversal lemma: if the z-index list is nonempty and its
consecutive entries differ by exactly one, and the time indices are
consecutive, then every two consecutive generated events satisfy
`evStep`. -/
theorem genAux_chain (l : List ℕ) (zs : List ℤ) (hz : zs ≠ [])
    (hchain : List.Chain' (fun a b : ℤ => (b - a).natAbs = 1) zs)
    (hl : List.Chain' (fun a b => b = a + 1) l) :
    List.Chain' evStep (genAux l zs) := by
  induction l generalizing zs with
  | nil => exact List.chain'_nil
  | cons i rest ih =>
    rw [genAux_cons, List.chain'_append]
    refine ⟨?_, ?_, ?_⟩
    · rw [List.chain'_map]
      exact hchain.imp (fun a b h => Or.inl ⟨rfl, h⟩)
    · apply ih
      · simpa using hz
      · rw [List.chain'_reverse]
        refine hchain.imp (fun a b h => ?_)
        simpa [Function.flip_def, ← Int.natAbs_neg (b - a), neg_sub] using h
      · exact hl.tail
    · intro x hx y hy
      cases rest with
      | nil =>
        rw [genAux_nil] at hy
        simp at hy
      | cons i' rest' =>
        have hstep : i' = i + 1 := (List.chain'_cons.mp hl).1
        have ha := List.getLast?_eq_getLast zs hz
        rw [List.getLast?_map, ha, Option.map_some'] at hx
        rw [genAux_cons, List.head?_append, List.head?_map, List.head?_reverse, ha,
          Option.map_some', Option.or_some] at hy
        rw [Option.mem_some_iff] at hx hy
        subst hx
        subst hy
        exact Or.inr ⟨hstep, rfl⟩

/-! ### Claim theorems -/

/-- C4: for `num_time_points = 3` and `z_idx = [0, 1, 2]`, the generated
event list is exactly the nine events `(0,0) (0,1) (0,2) (1,2) (1,1) (1,0)
(2,0) (2,1) (2,2)`: z order `[0,1,2]` at time 0, `[2,1,0]` at time 1 and
`[0,1,2]` at time 2, the direction alternating per time point. -/
theorem c4_event_list_concrete :
    genEvents 3 [0, 1, 2] =
      [⟨0, 0⟩, ⟨0, 1⟩, ⟨0, 2⟩, ⟨1, 2⟩, ⟨1, 1⟩, ⟨1, 0⟩,
        ⟨2, 0⟩, ⟨2, 1⟩, ⟨2, 2⟩] := by
  decide

/-- C5: for every number of time points and every z-index list, the length
of the generated event list equals `num_time_points * len(z_idx)`. -/
theorem c5_event_list_length (n : ℕ) (zs : List ℤ) :
    (genEvents n zs).length = n * zs.length :=
  (runEventLoop_invariants n zs).2.2

/-- C6: for every stage position and every `start_end_pos`, `mid_pos`,
`step_size`, the position sequence computed with `relative = True` equals
the one computed with `relative = False`, shifted elementwise by the stage
position reported by `get_position` at generation time. -/
theorem c6_relative_offset (stagePos s m δ : ℚ) :
    (upload_piezo_sequence stagePos s m δ true).2 =
      ((upload_piezo_sequence stagePos s m δ false).2).map
        (fun p => p + stagePos) := by
  simp [upload_piezo_sequence]

/-- C7: reversing the working z-index list is an involution: two
consecutive loop iterations restore the working order, and after any even
number of time points the working list `z_idx_` equals the original
`z_idx`. -/
theorem c7_reverse_involution :
    (∀ (i1 i2 : ℕ) (s : AcqState),
        (eventLoopStep i2 (eventLoopStep i1 s)).z_idx_ = s.z_idx_) ∧
      ∀ (k : ℕ) (zs : List ℤ), (runEventLoop (2 * k) zs).z_idx_ = zs := by
  constructor
  · intro i1 i2 s
    simp [eventLoopStep]
  · intro k zs
    rw [runEventLoop_z_idx_copy]
    induction k with
    | zero => rfl
    | succ k ih =>
      have h2 : 2 * (k + 1) = 2 + 2 * k := by ring
      rw [h2, Function.iterate_add_apply, ih]
      simp [Function.iterate_succ_apply']

/-- C9: the event loop operates on a copy of the z-index list
(`z_idx_ = z_idx.copy()`), so the original `z_idx` is unchanged after the
loop completes, for every number of time points (odd ones included). -/
theorem c9_z_idx_unchanged (n : ℕ) (zs : List ℤ) :
    (runEventLoop n zs).z_idx = zs :=
  (runEventLoop_invariants n zs).1

/-- C10: with `relative = False`, `upload_piezo_sequence` ignores the
stage's actual position and returns `z_pos = 0`, so the end-of-run reset
`mmc.set_position(z_stage, z_pos)` moves the stage to absolute position 0
rather than back to its pre-run position. -/
theorem c10_relative_false_returns_zero (stagePos s m δ : ℚ) :
    (upload_piezo_sequence stagePos s m δ false).1 = 0 ∧
      upload_piezo_sequence stagePos s m δ false =
        upload_piezo_sequence 0 s m δ false ∧
      resetPosition stagePos false = 0 :=
  ⟨rfl, rfl, rfl⟩

/-- C8: if the z-index list is `0 … m-1` with `m ≥ 1`, every two
consecutive generated events either stay in the same time point with z
indices differing by exactly one, or cross to the next time point with
equal z indices; in particular the z difference of consecutive events is
always at most one, so the traversal never jumps from the end of the z
range back to its start. -/
theorem c8_boustrophedon_chain (n m : ℕ) (hm : 1 ≤ m) :
    List.Chain' evStep
        (genEvents n ((List.range m).map (fun j : ℕ => (j : ℤ)))) ∧
      List.Chain' (fun e1 e2 : Event => (e2.z - e1.z).natAbs ≤ 1)
        (genEvents n ((List.range m).map (fun j : ℕ => (j : ℤ)))) := by
  have main : List.Chain' evStep
      (genEvents n ((List.range m).map (fun j : ℕ => (j : ℤ)))) := by
    rw [genEvents_eq_genAux]
    apply genAux_chain
    · simp only [ne_eq, List.map_eq_nil_iff, List.range_eq_nil]
      omega
    · rw [List.chain'_map]
      obtain ⟨m', rfl⟩ : ∃ m', m = m' + 1 := ⟨m - 1, by omega⟩
      refine (List.chain'_range_succ _ m').mpr (fun j _ => ?_)
      push_cast
      simp
    · exact chain'_range_id n
  refine ⟨main, main.imp (fun e1 e2 h => ?_)⟩
  rcases h with ⟨_, h1⟩ | ⟨_, h2⟩
  · omega
  · simp [h2]

/-- Witness for C8 at `num_time_points = 2`, `m = 3`. -/
theorem c8_boustrophedon_witness :
    1 ≤ 3 ∧
      (List.Chain' evStep
          (genEvents 2 ((List.range 3).map (fun j : ℕ => (j : ℤ)))) ∧
        List.Chain' (fun e1 e2 : Event => (e2.z - e1.z).natAbs ≤ 1)
          (genEvents 2 ((List.range 3).map (fun j : ℕ => (j : ℤ))))) :=
  ⟨by decide, c8_boustrophedon_chain 2 3 (by decide)⟩

/-- Consecutive entries of any `arange` differ by exactly the step. -/
theorem arange_chain_diff (s stop δ : ℚ) :
    List.Chain' (fun a b : ℚ => b - a = δ) (arange s stop δ) := by
  unfold arange
  rw [List.chain'_map]
  cases h : ⌈(stop - s) / δ⌉.toNat with
  | zero => simp
  | succ L =>
    refine (List.chain'_range_succ _ L).mpr (fun j _ => ?_)
    push_cast
    ring

/-- When the half-span is the exact multiple `k * step_size`, `mid_pos`
occurs exactly twice in the position sequence: once as the last entry of
the ascending run and once as the first entry of the descending run. -/
theorem count_mid_two (s m δ : ℚ) (k : ℕ) (hδ : δ ≠ 0) (hk : m - s = k * δ) :
    List.count m (pos_sequence s m δ) = 2 := by
  have hm : m = s + (k : ℚ) * δ := by linarith
  rw [pos_sequence_exact s m δ k hδ hk, List.count_append]
  have e1 := List.count_map_of_injective (List.range (k + 1))
    (fun i : ℕ => s + (i : ℚ) * δ) (affine_nat_injective s δ hδ) k
  have e2 := List.count_map_of_injective (List.range (k + 1))
    (fun i : ℕ => m + (i : ℚ) * (-δ))
    (affine_nat_injective m (-δ) (neg_ne_zero.mpr hδ)) 0
  simp only at e1 e2
  rw [← hm] at e1
  simp only [Nat.cast_zero, zero_mul, add_zero] at e2
  rw [e1, e2,
    List.count_eq_one_of_mem (List.nodup_range _) (List.mem_range.mpr (by omega)),
    List.count_eq_one_of_mem (List.nodup_range _) (List.mem_range.mpr (by omega))]

/-- The ascending `arange` run for the notebook's parameters: 21 values
from -2.5 up to 2.5 inclusive, in steps of 0.25. -/
theorem arange_asc_nb :
    arange nbStartEndPos (nbMidPos + nbStepSize) nbStepSize =
      [-5/2, -9/4, -2, -7/4, -3/2, -5/4, -1, -3/4, -1/2, -1/4, 0,
        1/4, 1/2, 3/4, 1, 5/4, 3/2, 7/4, 2, 9/4, 5/2] := by
  unfold nbStartEndPos nbMidPos nbStepSize
  have h : (5/2 : ℚ) + 1/4 = -5/2 + ((21 : ℕ) : ℚ) * (1/4) := by norm_num
  rw [h, arange_exact _ _ _ (by norm_num)]
  norm_num [List.range_succ]

/-- The descending `arange` run for the notebook's parameters: 21 values
from 2.5 down to -2.5 inclusive, in steps of -0.25 (it starts at
`mid_pos = 2.5`, duplicating the last ascending value). -/
theorem arange_desc_nb :
    arange nbMidPos (nbStartEndPos - nbStepSize) (-nbStepSize) =
      [5/2, 9/4, 2, 7/4, 3/2, 5/4, 1, 3/4, 1/2, 1/4, 0,
        -1/4, -1/2, -3/4, -1, -5/4, -3/2, -7/4, -2, -9/4, -5/2] := by
  unfold nbStartEndPos nbMidPos nbStepSize
  have h : (-5/2 : ℚ) - 1/4 = 5/2 + ((21 : ℕ) : ℚ) * (-(1/4)) := by norm_num
  rw [h, arange_exact _ _ _ (by norm_num)]
  norm_num [List.range_succ]

/-- The notebook's position sequence, fully evaluated: 42 values, with
2.5 occurring twice in the middle. -/
theorem pos_sequence_nb :
    pos_sequence nbStartEndPos nbMidPos nbStepSize =
      [-5/2, -9/4, -2, -7/4, -3/2, -5/4, -1, -3/4, -1/2, -1/4, 0,
        1/4, 1/2, 3/4, 1, 5/4, 3/2, 7/4, 2, 9/4, 5/2] ++
      [5/2, 9/4, 2, 7/4, 3/2, 5/4, 1, 3/4, 1/2, 1/4, 0,
        -1/4, -1/2, -3/4, -1, -5/4, -3/2, -7/4, -2, -9/4, -5/2] := by
  unfold pos_sequence
  rw [arange_asc_nb, arange_desc_nb]

/-- The notebook's position sequence has 42 entries. -/
theorem pos_sequence_nb_length :
    (pos_sequence nbStartEndPos nbMidPos nbStepSize).length = 42 := by
  rw [pos_sequence_nb]
  rfl

/-- C1 counterexample: at `start_end_pos = -2.5`, `mid_pos = 2.5`,
`step_size = 0.25`, the descending run has 21 values (not 20), the whole
sequence has 42 values (not 41), and the formula value
`num_z_positions = 21` differs from the claimed total 41. -/
theorem c1_length_counterexample :
    (pos_sequence nbStartEndPos nbMidPos nbStepSize).length = 42 ∧
      (arange nbMidPos (nbStartEndPos - nbStepSize) (-nbStepSize)).length = 21 ∧
      num_z_positions = 21 ∧
      (42 : ℕ) ≠ 41 ∧ (21 : ℕ) ≠ 20 ∧ (21 : ℤ) ≠ 41 := by
  refine ⟨pos_sequence_nb_length, ?_, num_z_positions_eq, by decide, by decide, by decide⟩
  rw [arange_desc_nb]
  rfl

/-- C1 (amended): for `start_end_pos = -2.5`, `mid_pos = 2.5`,
`step_size = 0.25`, the position sequence is an ascending run of exactly
21 values from -2.5 to 2.5 inclusive followed by a descending run of
exactly 21 values from 2.5 down to -2.5 (the turning value 2.5 is
duplicated), for a total length of 42 = 2 * num_z_positions, where
`num_z_positions = |mid_pos - start_end_pos| / step_size + 1 = 21`. -/
theorem c1_triangle_sequence_amended :
    arange nbStartEndPos (nbMidPos + nbStepSize) nbStepSize =
        [-5/2, -9/4, -2, -7/4, -3/2, -5/4, -1, -3/4, -1/2, -1/4, 0,
          1/4, 1/2, 3/4, 1, 5/4, 3/2, 7/4, 2, 9/4, 5/2] ∧
      arange nbMidPos (nbStartEndPos - nbStepSize) (-nbStepSize) =
        [5/2, 9/4, 2, 7/4, 3/2, 5/4, 1, 3/4, 1/2, 1/4, 0,
          -1/4, -1/2, -3/4, -1, -5/4, -3/2, -7/4, -2, -9/4, -5/2] ∧
      (pos_sequence nbStartEndPos nbMidPos nbStepSize).length = 42 ∧
      num_z_positions = 21 ∧
      (pos_sequence nbStartEndPos nbMidPos nbStepSize).length =
        2 * num_z_positions.toNat := by
  refine ⟨arange_asc_nb, arange_desc_nb, pos_sequence_nb_length, num_z_positions_eq, ?_⟩
  rw [pos_sequence_nb_length, num_z_positions_eq]
  rfl

/-- C2 counterexample: at the notebook's own inputs (which satisfy the
claim's hypotheses `start_end_pos < mid_pos` and `step_size > 0`),
`mid_pos` occurs twice in the position sequence, not exactly once. -/
theorem c2_midpoint_count_counterexample :
    nbStartEndPos < nbMidPos ∧ (0 : ℚ) < nbStepSize ∧
      List.count nbMidPos (pos_sequence nbStartEndPos nbMidPos nbStepSize) = 2 ∧
      List.count nbMidPos (pos_sequence nbStartEndPos nbMidPos nbStepSize) ≠ 1 := by
  have h : List.count nbMidPos (pos_sequence nbStartEndPos nbMidPos nbStepSize) = 2 :=
    count_mid_two nbStartEndPos nbMidPos nbStepSize 20
      (by norm_num [nbStepSize])
      (by norm_num [nbStartEndPos, nbMidPos, nbStepSize])
  exact ⟨by norm_num [nbStartEndPos, nbMidPos], by norm_num [nbStepSize], h, by omega⟩

/-- C2 (amended): for every `start_end_pos < mid_pos` and `step_size > 0`,
the position sequence is strictly increasing over its ascending half and
strictly decreasing over its descending half; and whenever `step_size`
evenly divides `mid_pos - start_end_pos`, the value `mid_pos` appears
exactly twice — once ending the ascending run and once beginning the
descending run — because the descending run includes the endpoint it
shares with the ascending run. -/
theorem c2_monotone_turning_point_amended (s m δ : ℚ) (hsm : s < m) (hδ : 0 < δ) :
    List.Chain' (fun a b : ℚ => a < b) (arange s (m + δ) δ) ∧
      List.Chain' (fun a b : ℚ => b < a) (arange m (s - δ) (-δ)) ∧
      ∀ k : ℕ, m - s = k * δ → List.count m (pos_sequence s m δ) = 2 := by
  refine ⟨?_, ?_, fun k hk => count_mid_two s m δ k (ne_of_gt hδ) hk⟩
  · exact (arange_chain_diff s (m + δ) δ).imp (fun a b h => by linarith)
  · exact (arange_chain_diff m (s - δ) (-δ)).imp (fun a b h => by linarith)

/-- Witness for C2 at the notebook's inputs, with `k = 20`. -/
theorem c2_monotone_witness :
    nbStartEndPos < nbMidPos ∧ (0 : ℚ) < nbStepSize ∧
      nbMidPos - nbStartEndPos = ((20 : ℕ) : ℚ) * nbStepSize ∧
      List.count nbMidPos (pos_sequence nbStartEndPos nbMidPos nbStepSize) = 2 :=
  ⟨by norm_num [nbStartEndPos, nbMidPos],
    by norm_num [nbStepSize],
    by norm_num [nbStartEndPos, nbMidPos, nbStepSize],
    (c2_monotone_turning_point_amended nbStartEndPos nbMidPos nbStepSize
        (by norm_num [nbStartEndPos, nbMidPos])
        (by norm_num [nbStepSize])).2.2 20
      (by norm_num [nbStartEndPos, nbMidPos, nbStepSize])⟩

/-- C3 counterexample: the notebook's `z_idx` has 21 entries while the
uploaded position sequence has 42, so `z_idx` is not
`0 .. (number of uploaded positions) - 1` and the uploaded positions are
not all addressed by z indices. -/
theorem c3_z_idx_counterexample :
    z_idx.length = 21 ∧
      (pos_sequence nbStartEndPos nbMidPos nbStepSize).length = 42 ∧
      z_idx.length ≠ (pos_sequence nbStartEndPos nbMidPos nbStepSize).length := by
  have h1 : z_idx.length = 21 := by
    rw [z_idx_eq]
    rfl
  refine ⟨h1, pos_sequence_nb_length, ?_⟩
  rw [h1, pos_sequence_nb_length]
  decide

/-- C3 (amended): the z-index list is the ordered integers 0 through 20,
where 21 is the formula value `int(|mid_pos - start_end_pos|/step_size + 1)`
computed before the upload; the uploaded sequence has twice that many
positions (42), so every z index addresses an uploaded position but the
uploaded positions are not in bijection with the z indices. -/
theorem c3_z_idx_amended :
    z_idx = (List.range 21).map Int.ofNat ∧
      num_z_positions = 21 ∧
      (pos_sequence nbStartEndPos nbMidPos nbStepSize).length = 2 * z_idx.length := by
  refine ⟨z_idx_eq, num_z_positions_eq, ?_⟩
  rw [pos_sequence_nb_length, z_idx_eq]
  rfl
